import Mathlib

/-!
Verification of the connection core of an icecast-style streaming server
(`src/connection.c`).  The development shallowly embeds the C functions that
the specification describes: C byte strings become `List Nat` (one value per
byte, NUL never stored inside a modelled string unless said otherwise),
`time_t` becomes `Int`, machine counters become `Nat` with explicit `% 2 ^ 64`
where wrap-around matters, and external collaborators (the socket layer, the
TLS library, the AVL tree traversal order) become explicit function or list
parameters.
-/

namespace IcecastConn

/-- Bytes of an ASCII string literal. -/
def strBytes (s : String) : List Nat := s.data.map Char.toNat

/-- Reading a C string out of a buffer: stop at the first NUL byte
(semantics of `%s` in `snprintf`). -/
def cstr (l : List Nat) : List Nat := l.takeWhile (fun b => b != 0)

/-! ## Base64 (modelled from the spec)

`util_base64_encode` / `util_base64_decode` live in `util.c`, which is not part
of the provided source.  Modelled from the spec: standard base64 with `=`
padding ("a single `Authorization: Basic` header whose value is
base64(`source:<password>`)", "base64-decode the rest; split on first `:`").
-/

/-- The 64-character base64 alphabet, as bytes. -/
def b64alphabet : List Nat :=
  strBytes "ABCDEFGHIJKLMNOPQRSTUVWXYZabcdefghijklmnopqrstuvwxyz0123456789+/"

/-- Byte for a six-bit group. -/
def sext (n : Nat) : Nat := b64alphabet.getD n 65

/-- Value of a base64 alphabet byte. -/
def b64decval (c : Nat) : Nat := b64alphabet.indexOf c

/-- Modelled from the spec: `util_base64_encode` (util.c, absent from src),
standard base64 of a byte string. -/
def b64encode : List Nat → List Nat
  | [] => []
  | [a] => [sext (a / 4), sext (a % 4 * 16), 61, 61]
  | [a, b] => [sext (a / 4), sext (a % 4 * 16 + b / 16), sext (b % 16 * 4), 61]
  | a :: b :: c :: rest =>
      sext (a / 4) :: sext (a % 4 * 16 + b / 16) :: sext (b % 16 * 4 + c / 64) ::
        sext (c % 64) :: b64encode rest

/-- Modelled from the spec: payload of `util_base64_decode` (util.c, absent
from src), standard base64 decoding; `61` is `=`. -/
def b64decode : List Nat → List Nat
  | a :: b :: c :: d :: rest =>
      if c = 61 then [b64decval a * 4 + b64decval b / 16]
      else if d = 61 then
        [b64decval a * 4 + b64decval b / 16, b64decval b % 16 * 16 + b64decval c / 4]
      else
        (b64decval a * 4 + b64decval b / 16) ::
          (b64decval b % 16 * 16 + b64decval c / 4) ::
          (b64decval c % 4 * 64 + b64decval d) :: b64decode rest
  | _ => []

lemma sext_val_aux : ∀ n ∈ List.range 64, b64decval (sext n) = n ∧ sext n ≠ 61 := by
  decide

lemma sext_val {n : Nat} (h : n < 64) : b64decval (sext n) = n :=
  (sext_val_aux n (List.mem_range.mpr h)).1

lemma sext_ne_pad {n : Nat} (h : n < 64) : sext n ≠ 61 :=
  (sext_val_aux n (List.mem_range.mpr h)).2

theorem b64_roundtrip : ∀ l : List Nat, (∀ b ∈ l, b < 256) → b64decode (b64encode l) = l
  | [], _ => rfl
  | [a], h => by
    have ha : a < 256 := h a (by simp)
    have h1 : a / 4 < 64 := by omega
    have h2 : a % 4 * 16 < 64 := by omega
    simp [b64encode, b64decode, sext_val h1, sext_val h2, List.cons.injEq]
    omega
  | [a, b], h => by
    have ha : a < 256 := h a (by simp)
    have hb : b < 256 := h b (by simp)
    have h1 : a / 4 < 64 := by omega
    have h2 : a % 4 * 16 + b / 16 < 64 := by omega
    have h3 : b % 16 * 4 < 64 := by omega
    simp [b64encode, b64decode, sext_val h1, sext_val h2, sext_val h3,
      sext_ne_pad h3, List.cons.injEq]
    omega
  | a :: b :: c :: rest, h => by
    have ha : a < 256 := h a (by simp)
    have hb : b < 256 := h b (by simp)
    have hc : c < 256 := h c (by simp)
    have h1 : a / 4 < 64 := by omega
    have h2 : a % 4 * 16 + b / 16 < 64 := by omega
    have h3 : b % 16 * 4 + c / 64 < 64 := by omega
    have h4 : c % 64 < 64 := by omega
    have ih := b64_roundtrip rest (fun x hx => h x (by simp [hx]))
    simp [b64encode, b64decode, sext_val h1, sext_val h2, sext_val h3, sext_val h4,
      sext_ne_pad h3, sext_ne_pad h4, ih, List.cons.injEq]
    omega

/-! ## List helpers -/

lemma takeWhile_append_all {p : Nat → Bool} (l1 l2 : List Nat) (h : ∀ a ∈ l1, p a) :
    (l1 ++ l2).takeWhile p = l1 ++ l2.takeWhile p := by
  induction l1 with
  | nil => simp
  | cons a t ih =>
    simp only [List.cons_append, List.takeWhile_cons, h a (by simp)]
    simp [ih fun x hx => h x (by simp [hx])]

lemma eq_append_middle {α : Type} (pre mid suf full : List α)
    (h : full = pre ++ (mid ++ suf)) :
    mid = (full.drop pre.length).take (full.length - pre.length - suf.length) := by
  subst h
  rw [List.drop_left]
  have hl : (pre ++ (mid ++ suf)).length - pre.length - suf.length = mid.length := by
    simp
  rw [hl]
  exact (List.take_left mid suf).symm

/-! ## Legacy-protocol adapter (C6 of the spec, `shoutcast_source_client`) -/

/-- `PER_CLIENT_REFBUF_SIZE` (refbuf.h): size of the per-client request
scratch buffer. -/
def PER_CLIENT_REFBUF_SIZE : Nat := 4096

/-- One password-phase invocation of `shoutcast_source_client`
(connection.c, the `client->shared_data` branch), given the listener's legacy
mount and the bytes accumulated in the request buffer.  The C buffer is
NUL-terminated at `refbuf->len`; the modelled byte lists carry only the
received bytes, so `strcspn (refbuf->data, "\r\n")` stopping at a NUL is
rendered as stopping at a `0` byte or at the end of the list.  `mount` is a C
string and therefore contains no `0` byte.  Returns `none` when no CR/LF is
available yet (the C code returns 0 and is re-invoked later), otherwise
`some (resp, synthetic)`: the `OK2\r\nicy-caps:11\r\n\r\n` response queued to
the peer and the synthetic `SOURCE` request installed (as the refbuf's
`associated` block) to be re-parsed by the standard HTTP preamble reader. -/
def shoutcastProcessPassword (mount data : List Nat) : Option (List Nat × List Nat) :=
  let len := (data.takeWhile (fun b => b != 0 && b != 13 && b != 10)).length
  match (data.drop len).head? with
  | none => none
  | some b =>
    if b = 0 then none
    else
      let pw := data.take len
      let header := (strBytes "source:" ++ pw).take 127
      let esc := b64encode header
      let skip := len + 1 + ((data.drop (len + 1)).takeWhile (fun b => b == 13 || b == 10)).length
      let rest := cstr (data.drop skip)
      let syn := (strBytes "SOURCE " ++ mount ++ strBytes " HTTP/1.0\r\nAuthorization: Basic "
                   ++ esc ++ strBytes "\r\n" ++ rest).take (PER_CLIENT_REFBUF_SIZE - 1)
      some (strBytes "OK2\r\nicy-caps:11\r\n\r\n", syn)

/-- The two operation sets a legacy client moves between:
`shoutcast_source_ops` and `http_request_ops`. -/
inductive Ops where
  | shoutcastSource
  | httpRequest
deriving DecidableEq, Repr

/-- Client state during the legacy handshake: current operation set, the
request build buffer (`shared_data`), the queued response together with its
`associated` synthetic request (`refbuf`), and the write position. -/
structure SCState where
  ops : Ops
  sharedData : Option (List Nat)
  respBuf : Option (List Nat × List Nat)
  pos : Nat
deriving DecidableEq, Repr

/-- The write-phase tail of `shoutcast_source_client`:
`format_generic_write_to_client` advanced `client->pos` by `wrote` bytes; when
the whole response has gone out (`client->pos == client->refbuf->len`) the
synthetic request becomes the new `shared_data` and the operation set switches
to `http_request_ops`. -/
def shoutcastWritePhase (st : SCState) (wrote : Nat) : SCState :=
  match st.respBuf with
  | none => st
  | some (resp, assoc) =>
    let pos := st.pos + wrote
    if pos = resp.length then
      { ops := Ops.httpRequest, sharedData := some assoc, respBuf := none, pos := 0 }
    else { st with pos := pos }

/-- C1 (amended): for a legacy session whose peer sends a password line `P`
(free of NUL/CR/LF, at most 120 bytes so that `source:P` fits the 128-byte
`header` scratch of `shoutcast_source_client`) terminated by CR/LF and
followed by header bytes `H` (NUL-free, not beginning with CR or LF), with
the synthetic request fitting the 4 KiB buffer, the adapter produces exactly
`SOURCE <mount> HTTP/1.0\r\nAuthorization: Basic <b64>\r\n` followed by `H`,
where the base64 value decodes to `source:P`; `OK2\r\nicy-caps:11\r\n\r\n` is
queued to the peer, and the operation set switches to `http_request_ops` only
once that response has been written out in full. -/
theorem shoutcast_synthetic_request
    (mount P H : List Nat)
    (hp : ∀ b ∈ P, b < 256 ∧ b ≠ 0 ∧ b ≠ 13 ∧ b ≠ 10)
    (hplen : P.length ≤ 120)
    (hH : ∀ b ∈ H, b ≠ 0)
    (hH0 : ∀ b, H.head? = some b → b ≠ 13 ∧ b ≠ 10)
    (hfit : (strBytes "SOURCE " ++ mount ++ strBytes " HTTP/1.0\r\nAuthorization: Basic "
              ++ b64encode (strBytes "source:" ++ P) ++ strBytes "\r\n" ++ H).length
            ≤ PER_CLIENT_REFBUF_SIZE - 1) :
    shoutcastProcessPassword mount (P ++ [13, 10] ++ H)
      = some (strBytes "OK2\r\nicy-caps:11\r\n\r\n",
          strBytes "SOURCE " ++ mount ++ strBytes " HTTP/1.0\r\nAuthorization: Basic "
            ++ b64encode (strBytes "source:" ++ P) ++ strBytes "\r\n" ++ H)
    ∧ b64decode (b64encode (strBytes "source:" ++ P)) = strBytes "source:" ++ P
    ∧ (∀ st wrote resp assoc, st.ops = Ops.shoutcastSource →
        st.respBuf = some (resp, assoc) →
        (shoutcastWritePhase st wrote).ops = Ops.httpRequest →
        st.pos + wrote = resp.length ∧
          (shoutcastWritePhase st wrote).sharedData = some assoc) := by
  have hdata : P ++ [13, 10] ++ H = P ++ (13 :: 10 :: H) := by simp
  have hpf : ∀ b ∈ P, (fun b => b != 0 && b != 13 && b != 10) b = true := by
    intro b hb
    have := hp b hb
    simp only [bne_iff_ne, ne_eq, Bool.and_eq_true, decide_eq_true_eq]
    tauto
  have hlen : ((P ++ [13, 10] ++ H).takeWhile (fun b => b != 0 && b != 13 && b != 10)).length
      = P.length := by
    rw [hdata, takeWhile_append_all _ _ hpf]
    simp [List.takeWhile_cons]
  have hdrop : (P ++ [13, 10] ++ H).drop P.length = 13 :: 10 :: H := by
    rw [hdata, List.drop_left]
  have htake : (P ++ [13, 10] ++ H).take P.length = P := by
    rw [hdata, List.take_left]
  have hdrop1 : (P ++ [13, 10] ++ H).drop (P.length + 1) = 10 :: H := by
    have h2 : P ++ [13, 10] ++ H = (P ++ [13]) ++ (10 :: H) := by simp
    have h3 : P.length + 1 = (P ++ [13]).length := by simp
    rw [h2, h3, List.drop_left]
  have hskiptw : ((10 :: H).takeWhile (fun b => b == 13 || b == 10)).length = 1 := by
    cases H with
    | nil => simp [List.takeWhile_cons]
    | cons h0 t =>
      have := hH0 h0 rfl
      simp [List.takeWhile_cons, this.1, this.2]
  have hdrop2 : (P ++ [13, 10] ++ H).drop (P.length + 2) = H := by
    have h2 : P ++ [13, 10] ++ H = (P ++ [13, 10]) ++ H := by simp
    have h3 : P.length + 2 = (P ++ [13, 10]).length := by simp
    rw [h2, h3, List.drop_left]
  have hcstr : cstr H = H := by
    apply List.takeWhile_eq_self_iff.mpr
    intro b hb
    simp [hH b hb]
  have hheader : (strBytes "source:" ++ P).take 127 = strBytes "source:" ++ P := by
    apply List.take_of_length_le
    simp only [List.length_append]
    have : (strBytes "source:").length = 7 := by decide
    omega
  refine ⟨?_, ?_, ?_⟩
  · rw [shoutcastProcessPassword]
    simp only [hlen, hdrop, htake, hdrop1, hskiptw, hdrop2, hheader, List.head?_cons]
    have h13 : ¬ (13 = 0) := by decide
    simp only [if_neg h13, hcstr]
    rw [List.take_of_length_le hfit]
  · apply b64_roundtrip
    intro b hb
    rcases List.mem_append.mp hb with h | h
    · have : ∀ x ∈ strBytes "source:", x < 256 := by decide
      exact this b h
    · exact (hp b h).1
  · intro st wrote resp assoc hops hresp hsw
    rw [shoutcastWritePhase, hresp] at hsw ⊢
    by_cases hpos : st.pos + wrote = resp.length
    · simp [hpos]
    · exfalso
      simp only [hpos, if_neg hpos] at hsw
      rw [hops] at hsw
      exact Ops.noConfusion hsw

/-- C1 witness: the hypotheses of `shoutcast_synthetic_request` hold and the
conclusion follows for the spec's own end-to-end example (password `hackme`,
mount `/live`, headers `icy-name:Test\r\n\r\n`). -/
theorem shoutcast_synthetic_request_witness :
    (strBytes "hackme").length ≤ 120 ∧
      shoutcastProcessPassword (strBytes "/live")
          (strBytes "hackme" ++ [13, 10] ++ strBytes "icy-name:Test\r\n\r\n")
        = some (strBytes "OK2\r\nicy-caps:11\r\n\r\n",
            strBytes "SOURCE " ++ strBytes "/live"
              ++ strBytes " HTTP/1.0\r\nAuthorization: Basic "
              ++ b64encode (strBytes "source:" ++ strBytes "hackme") ++ strBytes "\r\n"
              ++ strBytes "icy-name:Test\r\n\r\n") :=
  ⟨by decide,
    (shoutcast_synthetic_request (strBytes "/live") (strBytes "hackme")
        (strBytes "icy-name:Test\r\n\r\n") (by decide) (by decide) (by decide)
        (by decide) (by decide)).1⟩

set_option maxRecDepth 100000 in
/-- C1 counterexample: with a 121-byte password the 128-byte `header` scratch
truncates `source:<password>`, so the claim as stated (the Authorization
value decodes to exactly `source:P`) is false: no base64 segment of the
produced synthetic request decodes to `source:` followed by the full
121-byte password. -/
theorem shoutcast_truncation_cex :
    ¬ ∃ b64 : List Nat,
        (shoutcastProcessPassword (strBytes "/live")
            (List.replicate 121 97 ++ [13, 10])).map Prod.snd
          = some (strBytes "SOURCE /live HTTP/1.0\r\nAuthorization: Basic "
              ++ (b64 ++ strBytes "\r\n"))
        ∧ b64decode b64 = strBytes "source:" ++ List.replicate 121 97 := by
  rintro ⟨b64, hsyn, hdec⟩
  have hS : ((shoutcastProcessPassword (strBytes "/live")
        (List.replicate 121 97 ++ [13, 10])).map Prod.snd).getD []
      = strBytes "SOURCE /live HTTP/1.0\r\nAuthorization: Basic "
        ++ (b64 ++ strBytes "\r\n") := by
    rw [hsyn]
    rfl
  have hb := eq_append_middle _ _ _ _ hS
  rw [hb] at hdec
  exact absurd hdec (by decide)

/-! ## IP access cache (C1 of the spec)

The banned-IP set is an AVL map of `struct banned_entry` (a 16-byte `ip`
text field, so at most 15 characters plus NUL, and a `timeout`) plus a list
of wildcard patterns.  The map is modelled as a list of entries with the
AVL traversal order abstracted: the comparator `compare_banned_ip` runs on
the nodes the tree search visits, which the model receives as the `probes`
list; `fnmatch`-style wildcard matching (an external library call) is a
function parameter. -/

/-- A `struct banned_entry`: the stored (possibly truncated) IP text and its
expiry (`0` = permanent). -/
structure BannedEntry where
  ip : List Char
  timeout : Int
deriving DecidableEq, Repr

/-- `ip [strcspn (ip, "*?[")]` being non-NUL: the entry contains a wildcard
metacharacter. -/
def hasWildcardChar (ip : List Char) : Bool :=
  ip.any (fun c => c == '*' || c == '?' || c == '[')

/-- `add_banned_ip`: wildcard entries are prepended to the wildcard list;
literal entries are truncated to 15 characters
(`snprintf (&banned->ip[0], sizeof (banned->ip), "%s", ip)` with a 16-byte
field) and inserted into the map with the given timeout. -/
def addBannedIp (m : List BannedEntry) (wilds : List (List Char)) (ip : List Char)
    (timeout : Int) : List BannedEntry × List (List Char) :=
  if hasWildcardChar ip then (m, ip :: wilds)
  else ({ ip := ip.take 15, timeout := timeout } :: m, wilds)

/-- `connection_add_banned_ip (ip, duration)`: timeout is `now + duration`
for positive durations and `0` (permanent) otherwise. -/
def connectionAddBannedIp (m : List BannedEntry) (wilds : List (List Char))
    (ip : List Char) (duration now : Int) : List BannedEntry × List (List Char) :=
  let timeout : Int := if duration > 0 then now + duration else 0
  addBannedIp m wilds ip timeout

/-- The side effect of `compare_banned_ip` during a tree search for `ip`:
the first visited node with a different key whose nonzero timeout lies more
than 60 s in the past is remembered in `ban_entry_removal`. -/
def banRemovalCandidate (probes : List BannedEntry) (ip : List Char) (now : Int) :
    Option BannedEntry :=
  probes.find? (fun e => decide (e.ip ≠ ip) && decide (e.timeout ≠ 0)
    && decide (e.timeout < now - 60))

/-- `search_banned_ip_locked`: wildcard scan first; then the map lookup with
in-place soft renewal (a matching entry with less than 300 s remaining gets
`timeout = now + 300`), deletion of an expired match, and — only when the
lookup did not return a live match — deletion of the at most one entry the
comparator marked in `ban_entry_removal`.  Returns the C result
(1 match, 0 no match) and the updated map. -/
def searchBannedIpLocked (fnmatch : List Char → List Char → Bool)
    (wilds : List (List Char)) (m probes : List BannedEntry) (ip : List Char)
    (now : Int) : Int × List BannedEntry :=
  if wilds.any (fun pat => fnmatch ip pat) then (1, m)
  else
    match m.find? (fun e => decide (e.ip = ip)) with
    | some e =>
      if e.timeout = 0 ∨ e.timeout > now then
        (1, if e.timeout ≠ 0 ∧ now + 300 > e.timeout then
              m.map (fun x => if x.ip = ip then { x with timeout := now + 300 } else x)
            else m)
      else
        let m1 := m.filter (fun x => decide (x.ip ≠ ip))
        (0, match banRemovalCandidate probes ip now with
            | some cand => m1.filter (fun x => decide (x.ip ≠ cand.ip))
            | none => m1)
    | none =>
      (0, match banRemovalCandidate probes ip now with
          | some cand => m.filter (fun x => decide (x.ip ≠ cand.ip))
          | none => m)

lemma search_found (fnmatch : List Char → List Char → Bool) (wilds : List (List Char))
    (m probes : List BannedEntry) (ip : List Char) (now : Int) (e0 : BannedEntry)
    (hwany : (wilds.any fun pat => fnmatch ip pat) = false)
    (hfind : m.find? (fun e => decide (e.ip = ip)) = some e0) :
    searchBannedIpLocked fnmatch wilds m probes ip now =
      if e0.timeout = 0 ∨ e0.timeout > now then
        ((1 : Int), if e0.timeout ≠ 0 ∧ now + 300 > e0.timeout then
              m.map (fun x => if x.ip = ip then { x with timeout := now + 300 } else x)
            else m)
      else
        ((0 : Int), match banRemovalCandidate probes ip now with
            | some cand =>
              (m.filter (fun x => decide (x.ip ≠ ip))).filter
                (fun x => decide (x.ip ≠ cand.ip))
            | none => m.filter (fun x => decide (x.ip ≠ ip))) := by
  unfold searchBannedIpLocked
  rw [if_neg (by simp [hwany]), hfind]

lemma search_notfound (fnmatch : List Char → List Char → Bool) (wilds : List (List Char))
    (m probes : List BannedEntry) (ip : List Char) (now : Int)
    (hwany : (wilds.any fun pat => fnmatch ip pat) = false)
    (hfind : m.find? (fun e => decide (e.ip = ip)) = none) :
    searchBannedIpLocked fnmatch wilds m probes ip now =
      ((0 : Int), match banRemovalCandidate probes ip now with
          | some cand => m.filter (fun x => decide (x.ip ≠ cand.ip))
          | none => m) := by
  unfold searchBannedIpLocked
  rw [if_neg (by simp [hwany]), hfind]

/-- C3: an entry added via `connection_add_banned_ip` with duration `d > 0`
at time `t0` (into a map holding no entry for that ip, with no wildcard
pattern matching it, ip short enough not to be truncated) answers a single
subsequent lookup: match while `now < t0 + d`; no match — with the entry
deleted — once `now ≥ t0 + d + 300` (indeed already once `now ≥ t0 + d`);
and a matching lookup with less than 300 s remaining renews the timeout to
`now + 300`. -/
theorem banned_ip_duration_lifecycle
    (fnmatch : List Char → List Char → Bool) (wilds : List (List Char))
    (m0 probes : List BannedEntry) (ip : List Char) (t0 d now : Int)
    (hw : hasWildcardChar ip = false)
    (hwild : ∀ pat ∈ wilds, fnmatch ip pat = false)
    (hkey : ip.take 15 = ip)
    (ht0 : 0 ≤ t0) (hd : 0 < d) :
    (now < t0 + d →
      (searchBannedIpLocked fnmatch (connectionAddBannedIp m0 wilds ip d t0).2
        (connectionAddBannedIp m0 wilds ip d t0).1 probes ip now).1 = 1)
    ∧ (t0 + d + 300 ≤ now →
      (searchBannedIpLocked fnmatch (connectionAddBannedIp m0 wilds ip d t0).2
        (connectionAddBannedIp m0 wilds ip d t0).1 probes ip now).1 = 0
      ∧ ∀ e ∈ (searchBannedIpLocked fnmatch (connectionAddBannedIp m0 wilds ip d t0).2
          (connectionAddBannedIp m0 wilds ip d t0).1 probes ip now).2, e.ip ≠ ip)
    ∧ (now < t0 + d → t0 + d < now + 300 →
      BannedEntry.mk ip (now + 300)
        ∈ (searchBannedIpLocked fnmatch (connectionAddBannedIp m0 wilds ip d t0).2
            (connectionAddBannedIp m0 wilds ip d t0).1 probes ip now).2) := by
  have hadd : connectionAddBannedIp m0 wilds ip d t0
      = ({ ip := ip, timeout := t0 + d } :: m0, wilds) := by
    rw [connectionAddBannedIp, addBannedIp, if_neg (by simp [hw]), if_pos hd, hkey]
  rw [hadd]
  dsimp only
  have hwany : (wilds.any fun pat => fnmatch ip pat) = false := by
    rw [List.any_eq_false]
    intro pat hpat
    simp [hwild pat hpat]
  have hfind : ({ ip := ip, timeout := t0 + d } :: m0).find?
      (fun e => decide (e.ip = ip)) = some { ip := ip, timeout := t0 + d } := by
    simp [List.find?_cons]
  have hsearch := search_found fnmatch wilds ({ ip := ip, timeout := t0 + d } :: m0)
    probes ip now { ip := ip, timeout := t0 + d } hwany hfind
  refine ⟨?_, ?_, ?_⟩
  · intro hnow
    rw [hsearch, if_pos (Or.inr (show now < ({ ip := ip, timeout := t0 + d } :
      BannedEntry).timeout from hnow))]
  · intro hnow
    have hcond : ¬ (({ ip := ip, timeout := t0 + d } : BannedEntry).timeout = 0
        ∨ ({ ip := ip, timeout := t0 + d } : BannedEntry).timeout > now) := by
      simp only [not_or]
      exact ⟨show ¬ (t0 + d) = 0 by omega, show ¬ now < t0 + d by omega⟩
    rw [hsearch, if_neg hcond]
    refine ⟨rfl, ?_⟩
    intro e he
    cases hcand : banRemovalCandidate probes ip now with
    | some cand =>
      simp only [hcand] at he
      have := (List.mem_filter.mp ((List.mem_filter.mp he).1)).2
      simpa using this
    | none =>
      simp only [hcand] at he
      have := (List.mem_filter.mp he).2
      simpa using this
  · intro hnow hrenew
    rw [hsearch, if_pos (Or.inr (by simpa using hnow)),
      if_pos (by constructor <;> simp <;> omega)]
    simp

/-- C3 witness: concrete run of `banned_ip_duration_lifecycle` — ip
`1.2.3.4` added at `t0 = 1000` with duration `50`, looked up at
`now = 1020` — reports a match. -/
theorem banned_ip_duration_lifecycle_witness :
    ((1020 : Int) < 1000 + 50) ∧
      (searchBannedIpLocked (fun _ _ => false)
        (connectionAddBannedIp [] [] "1.2.3.4".data 50 1000).2
        (connectionAddBannedIp [] [] "1.2.3.4".data 50 1000).1
        [] "1.2.3.4".data 1020).1 = 1 :=
  ⟨by decide,
    (banned_ip_duration_lifecycle (fun _ _ => false) [] [] [] "1.2.3.4".data
        1000 50 1020 (by decide) (by simp) (by decide) (by decide) (by decide)).1
      (by decide)⟩

/-- C4 counterexample: with an existing entry for `1.2.3.4` whose remaining
time at `now = 1000` is 10 s (timeout 1010, less than 300 s left), the add
operation `connection_add_banned_ip ("1.2.3.4", 600)` leaves the existing
entry untouched (timeout still 1010) and extends nothing to
`now + 300 = 1300`: no entry of the resulting map carries timeout 1300, so
the claimed extension-by-add is false. -/
theorem add_banned_ip_no_extension_cex :
    (BannedEntry.mk "1.2.3.4".data 1010)
        ∈ (connectionAddBannedIp [{ ip := "1.2.3.4".data, timeout := 1010 }] []
            "1.2.3.4".data 600 1000).1
      ∧ ((connectionAddBannedIp [{ ip := "1.2.3.4".data, timeout := 1010 }] []
            "1.2.3.4".data 600 1000).1.all
          (fun e => decide (e.timeout ≠ 1300))) = true := by
  decide

/-- C4 (amended): `connection_add_banned_ip (ip, seconds)` inserts a fresh
literal entry with timeout `now + seconds` when `seconds > 0` (and a
permanent one, timeout 0, when `seconds ≤ 0`); it does not modify any
existing entry — in particular no existing entry's timeout is extended by
the add itself (the `now + 300` soft renewal happens only in the lookup
path, `search_banned_ip_locked`). -/
theorem connection_add_banned_ip_inserts
    (m : List BannedEntry) (wilds : List (List Char)) (ip : List Char)
    (duration now : Int) (hw : hasWildcardChar ip = false) :
    (connectionAddBannedIp m wilds ip duration now).1
      = { ip := ip.take 15,
          timeout := if duration > 0 then now + duration else 0 } :: m
    ∧ (∀ e ∈ m, e ∈ (connectionAddBannedIp m wilds ip duration now).1)
    ∧ (connectionAddBannedIp m wilds ip duration now).2 = wilds := by
  rw [connectionAddBannedIp, addBannedIp, if_neg (by simp [hw])]
  refine ⟨rfl, ?_, rfl⟩
  intro e he
  exact List.mem_cons_of_mem _ he

/-- C4 witness: the non-wildcard hypothesis holds for `1.2.3.4` and a
positive-duration add inserts `timeout = now + duration`. -/
theorem connection_add_banned_ip_inserts_witness :
    hasWildcardChar "1.2.3.4".data = false ∧
      (connectionAddBannedIp [] [] "1.2.3.4".data 600 1000).1
        = { ip := "1.2.3.4".data.take 15,
            timeout := if (600 : Int) > 0 then 1000 + 600 else 0 } :: [] :=
  ⟨by decide,
    (connection_add_banned_ip_inserts [] [] "1.2.3.4".data 600 1000 (by decide)).1⟩

lemma pairwise_key_eq {m : List BannedEntry}
    (h : m.Pairwise (fun a b => a.ip ≠ b.ip)) {a b : BannedEntry}
    (ha : a ∈ m) (hb : b ∈ m) (hip : a.ip = b.ip) : a = b := by
  induction m with
  | nil => cases ha
  | cons x t ih =>
    rcases List.pairwise_cons.mp h with ⟨hx, ht⟩
    rcases List.mem_cons.mp ha with rfl | ha'
    · rcases List.mem_cons.mp hb with rfl | hb'
      · rfl
      · exact absurd hip (hx b hb')
    · rcases List.mem_cons.mp hb with rfl | hb'
      · exact absurd hip.symm (hx a ha')
      · exact ih ht ha' hb'

lemma nodup_of_pairwise_ip {m : List BannedEntry}
    (h : m.Pairwise (fun a b => a.ip ≠ b.ip)) : m.Nodup :=
  h.imp (fun hne heq => hne (by rw [heq]))

lemma length_filter_le_one {α : Type} {l : List α} (hn : l.Nodup)
    (p : α → Bool) (c : α) (h : ∀ x ∈ l, p x = true → x = c) :
    (l.filter p).length ≤ 1 := by
  induction l with
  | nil => simp
  | cons a t ih =>
    rcases List.nodup_cons.mp hn with ⟨hna, hnt⟩
    by_cases hpa : p a = true
    · have ha := h a (by simp) hpa
      have hempty : t.filter p = [] := by
        rw [List.filter_eq_nil_iff]
        intro x hx hpx
        have hxc := h x (by simp [hx]) hpx
        exact absurd (hxc.trans ha.symm ▸ hx) hna
      simp [List.filter_cons, hpa, hempty]
    · simp only [List.filter_cons, hpa, Bool.false_eq_true, if_false]
      exact ih hnt (fun x hx hpx => h x (by simp [hx]) hpx)

/-- C5: a single `contains` lookup on the banned-IP map can only remove
(a) the looked-up entry itself, and only when its nonzero timeout has
expired (or is replaced by its `now + 300` soft renewal), and (b) at most
one other entry, which must carry a nonzero timeout more than 60 s before
the lookup's `now`; every entry of the resulting map is an original entry
except for the soft-renewed match. -/
theorem search_banned_ip_frame
    (fnmatch : List Char → List Char → Bool) (wilds : List (List Char))
    (m probes : List BannedEntry) (ip : List Char) (now : Int)
    (hdist : m.Pairwise (fun a b => a.ip ≠ b.ip))
    (hprobes : ∀ x ∈ probes, x ∈ m) :
    (∀ e ∈ m, e ∉ (searchBannedIpLocked fnmatch wilds m probes ip now).2 →
        (e.ip = ip ∧ e.timeout ≠ 0 ∧
          (e.timeout ≤ now ∨ BannedEntry.mk ip (now + 300)
            ∈ (searchBannedIpLocked fnmatch wilds m probes ip now).2))
        ∨ (e.ip ≠ ip ∧ e.timeout ≠ 0 ∧ e.timeout < now - 60))
    ∧ (m.filter (fun e =>
        decide (e ∉ (searchBannedIpLocked fnmatch wilds m probes ip now).2)
          && decide (e.ip ≠ ip))).length ≤ 1
    ∧ (∀ e ∈ (searchBannedIpLocked fnmatch wilds m probes ip now).2,
        e ∈ m ∨ (e.ip = ip ∧ e.timeout = now + 300)) := by
  have hnodup := nodup_of_pairwise_ip hdist
  by_cases hwany : (wilds.any fun pat => fnmatch ip pat) = true
  · have hm2 : searchBannedIpLocked fnmatch wilds m probes ip now = (1, m) := by
      rw [searchBannedIpLocked, if_pos hwany]
    rw [hm2]
    refine ⟨fun e he hne => absurd he hne, ?_, fun e he => Or.inl he⟩
    have : (m.filter (fun e => decide (e ∉ m) && decide (e.ip ≠ ip))) = [] := by
      rw [List.filter_eq_nil_iff]
      intro x hx
      simp [hx]
    rw [this]
    simp
  · have hw' : (wilds.any fun pat => fnmatch ip pat) = false := by
      simpa using hwany
    cases hfind : m.find? (fun e => decide (e.ip = ip)) with
    | some e0 =>
      have he0m : e0 ∈ m := List.mem_of_find?_eq_some hfind
      have he0ip : e0.ip = ip := by
        have := List.find?_some hfind
        simpa using this
      have hsearch := search_found fnmatch wilds m probes ip now e0 hw' hfind
      by_cases htv : e0.timeout = 0 ∨ e0.timeout > now
      · rw [hsearch, if_pos htv]
        by_cases hrn : e0.timeout ≠ 0 ∧ now + 300 > e0.timeout
        · rw [if_pos hrn]
          set f : BannedEntry → BannedEntry :=
            fun x => if x.ip = ip then { x with timeout := now + 300 } else x with hf
          have hstay : ∀ e ∈ m, e.ip ≠ ip → e ∈ m.map f := by
            intro e he hne
            exact List.mem_map.mpr ⟨e, he, by simp [hf, hne]⟩
          have hrenewed : BannedEntry.mk ip (now + 300) ∈ m.map f := by
            refine List.mem_map.mpr ⟨e0, he0m, ?_⟩
            simp [hf, he0ip]
          refine ⟨?_, ?_, ?_⟩
          · intro e he hne
            by_cases hip : e.ip = ip
            · exact Or.inl ⟨hip, by
                have : e = e0 := pairwise_key_eq hdist he he0m (hip.trans he0ip.symm)
                rw [this]; exact hrn.1, Or.inr hrenewed⟩
            · exact absurd (hstay e he hip) hne
          · have : (m.filter (fun e => decide (e ∉ m.map f) && decide (e.ip ≠ ip))) = [] := by
              rw [List.filter_eq_nil_iff]
              intro x hx
              by_cases hip : x.ip = ip
              · simp [hip]
              · simp [hstay x hx hip]
            rw [this]
            simp
          · intro e he
            rcases List.mem_map.mp he with ⟨x, hx, rfl⟩
            by_cases hip : x.ip = ip
            · exact Or.inr (by simp [hf, hip])
            · exact Or.inl (by simpa [hf, hip] using hx)
        · rw [if_neg hrn]
          refine ⟨fun e he hne => absurd he hne, ?_, fun e he => Or.inl he⟩
          have : (m.filter (fun e => decide (e ∉ m) && decide (e.ip ≠ ip))) = [] := by
            rw [List.filter_eq_nil_iff]
            intro x hx
            simp [hx]
          rw [this]
          simp
      · -- expired match: the looked-up entry is deleted, then possibly the candidate
        rw [hsearch, if_neg htv]
        push_neg at htv
        cases hcand : banRemovalCandidate probes ip now with
        | some cand =>
          have hcandm : cand ∈ m := hprobes cand (List.mem_of_find?_eq_some hcand)
          have hcandp : cand.ip ≠ ip ∧ cand.timeout ≠ 0 ∧ cand.timeout < now - 60 := by
            have := List.find?_some hcand
            simp only [Bool.and_eq_true, decide_eq_true_eq] at this
            exact ⟨this.1.1, this.1.2, this.2⟩
          refine ⟨?_, ?_, ?_⟩
          · intro e he hne
            by_cases hip : e.ip = ip
            · have : e = e0 := pairwise_key_eq hdist he he0m (hip.trans he0ip.symm)
              exact Or.inl ⟨hip, by rw [this]; exact htv.1, Or.inl (by rw [this]; exact htv.2)⟩
            · right
              have : e.ip = cand.ip := by
                by_contra hnc
                exact hne (List.mem_filter.mpr
                  ⟨List.mem_filter.mpr ⟨he, by simp [hip]⟩, by simp [hnc]⟩)
              have he_cand : e = cand := pairwise_key_eq hdist he hcandm this
              rw [he_cand]
              exact hcandp
          · apply length_filter_le_one hnodup _ cand
            intro x hx hpx
            simp only [Bool.and_eq_true, decide_eq_true_eq] at hpx
            by_contra hxc
            apply hpx.1
            refine List.mem_filter.mpr ⟨List.mem_filter.mpr ⟨hx, by simp [hpx.2]⟩, ?_⟩
            simp only [decide_eq_true_eq]
            intro hxe
            exact hxc (pairwise_key_eq hdist hx hcandm hxe)
          · intro e he
            exact Or.inl (List.mem_filter.mp (List.mem_filter.mp he).1).1
        | none =>
          refine ⟨?_, ?_, ?_⟩
          · intro e he hne
            by_cases hip : e.ip = ip
            · have : e = e0 := pairwise_key_eq hdist he he0m (hip.trans he0ip.symm)
              exact Or.inl ⟨hip, by rw [this]; exact htv.1, Or.inl (by rw [this]; exact htv.2)⟩
            · exact absurd (List.mem_filter.mpr ⟨he, by simp [hip]⟩) hne
          · have : (m.filter (fun e =>
                decide (e ∉ m.filter (fun x => decide (x.ip ≠ ip))) && decide (e.ip ≠ ip)))
                = [] := by
              rw [List.filter_eq_nil_iff]
              intro x hx
              by_cases hip : x.ip = ip
              · simp [hip]
              · have hxf : x ∈ m.filter (fun y => decide (y.ip ≠ ip)) :=
                  List.mem_filter.mpr ⟨hx, by simp [hip]⟩
                simp only [Bool.and_eq_true, decide_eq_true_eq, not_and]
                intro hnot
                exact absurd hxf hnot
            rw [this]
            simp
          · intro e he
            exact Or.inl (List.mem_filter.mp he).1
      | none =>
        have hsearch := search_notfound fnmatch wilds m probes ip now hw' hfind
        rw [hsearch]
        cases hcand : banRemovalCandidate probes ip now with
        | some cand =>
          have hcandm : cand ∈ m := hprobes cand (List.mem_of_find?_eq_some hcand)
          have hcandp : cand.ip ≠ ip ∧ cand.timeout ≠ 0 ∧ cand.timeout < now - 60 := by
            have := List.find?_some hcand
            simp only [Bool.and_eq_true, decide_eq_true_eq] at this
            exact ⟨this.1.1, this.1.2, this.2⟩
          refine ⟨?_, ?_, ?_⟩
          · intro e he hne
            have : e.ip = cand.ip := by
              by_contra hnc
              exact hne (List.mem_filter.mpr ⟨he, by simp [hnc]⟩)
            have he_cand : e = cand := pairwise_key_eq hdist he hcandm this
            rw [he_cand]
            exact Or.inr hcandp
          · apply length_filter_le_one hnodup _ cand
            intro x hx hpx
            simp only [Bool.and_eq_true, decide_eq_true_eq] at hpx
            by_contra hxc
            apply hpx.1
            refine List.mem_filter.mpr ⟨hx, ?_⟩
            simp only [decide_eq_true_eq]
            intro hxe
            exact hxc (pairwise_key_eq hdist hx hcandm hxe)
          · intro e he
            exact Or.inl (List.mem_filter.mp he).1
        | none =>
          refine ⟨fun e he hne => absurd he hne, ?_, fun e he => Or.inl he⟩
          have : (m.filter (fun e => decide (e ∉ m) && decide (e.ip ≠ ip))) = [] := by
            rw [List.filter_eq_nil_iff]
            intro x hx
            simp [hx]
          rw [this]
          simp

/-- C5 witness: concrete run of `search_banned_ip_frame` on a two-entry map
(permanent `1.1.1.1`, long-expired `2.2.2.2`, the latter visited during the
traversal): at most one entry other than the looked-up one is removed. -/
theorem search_banned_ip_frame_witness :
    ([{ ip := "1.1.1.1".data, timeout := 0 },
      { ip := "2.2.2.2".data, timeout := 100 }] : List BannedEntry).Pairwise
        (fun a b => a.ip ≠ b.ip)
    ∧ (([{ ip := "1.1.1.1".data, timeout := 0 },
        { ip := "2.2.2.2".data, timeout := 100 }] : List BannedEntry).filter (fun e =>
        decide (e ∉ (searchBannedIpLocked (fun _ _ => false) []
            [{ ip := "1.1.1.1".data, timeout := 0 },
             { ip := "2.2.2.2".data, timeout := 100 }]
            [{ ip := "2.2.2.2".data, timeout := 100 }] "1.1.1.1".data 1000).2)
          && decide (e.ip ≠ "1.1.1.1".data))).length ≤ 1 :=
  ⟨by decide,
    (search_banned_ip_frame (fun _ _ => false) []
        [{ ip := "1.1.1.1".data, timeout := 0 },
         { ip := "2.2.2.2".data, timeout := 100 }]
        [{ ip := "2.2.2.2".data, timeout := 100 }] "1.1.1.1".data 1000
        (by decide) (by decide)).2.1⟩

/-- C8: a literal banned entry stores at most 15 characters of IP text
(16-byte field including the NUL): for an IP string longer than 15
characters the stored key is the truncated text, which differs from the full
string, and a subsequent lookup with the full string finds no literal-map
match — the textual ban is ineffective. -/
theorem banned_ip_truncation
    (fnmatch : List Char → List Char → Bool) (wilds : List (List Char))
    (m0 probes : List BannedEntry) (ip : List Char) (timeout now : Int)
    (hw : hasWildcardChar ip = false)
    (hwild : ∀ pat ∈ wilds, fnmatch ip pat = false)
    (hlen : 15 < ip.length)
    (hm0 : ∀ e ∈ m0, e.ip ≠ ip) :
    BannedEntry.mk (ip.take 15) timeout ∈ (addBannedIp m0 wilds ip timeout).1
    ∧ ip.take 15 ≠ ip
    ∧ (searchBannedIpLocked fnmatch wilds (addBannedIp m0 wilds ip timeout).1
        probes ip now).1 = 0 := by
  have hadd : addBannedIp m0 wilds ip timeout
      = ({ ip := ip.take 15, timeout := timeout } :: m0, wilds) := by
    rw [addBannedIp, if_neg (by simp [hw])]
  have htr : ip.take 15 ≠ ip := by
    intro heq
    have hlg := congrArg List.length heq
    rw [List.length_take] at hlg
    omega
  rw [hadd]
  refine ⟨List.mem_cons_self _ _, htr, ?_⟩
  have hwany : (wilds.any fun pat => fnmatch ip pat) = false := by
    rw [List.any_eq_false]
    intro pat hpat
    simp [hwild pat hpat]
  have hfind : ({ ip := ip.take 15, timeout := timeout } :: m0).find?
      (fun e => decide (e.ip = ip)) = none := by
    rw [List.find?_eq_none]
    intro x hx
    rcases List.mem_cons.mp hx with rfl | hx'
    · simp [htr]
    · simp [hm0 x hx']
  rw [search_notfound fnmatch wilds _ probes ip now hwany hfind]

/-- C8 witness: the 19-character IPv6 text `abcd:ef01:2345:6789` is stored
truncated and the full string then fails to match. -/
theorem banned_ip_truncation_witness :
    15 < ("abcd:ef01:2345:6789".data).length
    ∧ (searchBannedIpLocked (fun _ _ => false) []
        (addBannedIp [] [] "abcd:ef01:2345:6789".data 0).1
        [] "abcd:ef01:2345:6789".data 50).1 = 0 :=
  ⟨by decide,
    (banned_ip_truncation (fun _ _ => false) [] [] [] "abcd:ef01:2345:6789".data 0 50
        (by decide) (by decide) (by decide) (by decide)).2.2⟩

/-! ## Listen-socket manager (C3 of the spec, `connection_listen_sockets_close`) -/

/-- A per-listener profile (`listener_t`): the fields
`connection_listen_sockets_close` consults. -/
structure Listener where
  port : Int
  bindAddress : Option (List Char)
deriving DecidableEq, Repr

/-- A slot of the parallel arrays `global.serversock` / `global.server_conn`:
the socket descriptor and its profile move together. -/
structure ServerSock where
  sock : Nat
  conn : Listener
deriving DecidableEq, Repr

/-- A NULL bind address compares as the empty string
(`listener->bind_address ? listener->bind_address : ""`). -/
def normBind : Option (List Char) → List Char
  | none => []
  | some s => s

/-- The inner `while (listener)` search of `connection_listen_sockets_close`:
the first configured listener with the same port and same (normalised) bind
address. -/
def listenerMatch (cfg : List Listener) (conn : Listener) : Option Listener :=
  cfg.find? (fun l => decide (l.port = conn.port)
    && decide (normBind l.bindAddress = normBind conn.bindAddress))

/-- `connection_listen_sockets_close (config, all_sockets)` over the parallel
arrays, modelled as one list of slots: a slot is kept (compacted towards the
front, original descriptor and profile intact) when a config is supplied,
`all_sockets` is false, the port is privileged (< 1024) and the config still
carries a matching listener; every other slot is closed
(`sock_close` + `config_clear_listener`) and dropped, decrementing
`global.server_sockets`. -/
def listenSocketsClose (config : Option (List Listener)) (allSockets : Bool) :
    List ServerSock → List ServerSock
  | [] => []
  | s :: rest =>
    let keep :=
      match config with
      | some cfg =>
        if allSockets = false ∧ s.conn.port < 1024 then (listenerMatch cfg s.conn).isSome
        else false
      | none => false
    if keep then s :: listenSocketsClose config allSockets rest
    else listenSocketsClose config allSockets rest

/-- C2: with a config supplied and `all = false`, a listening socket is kept
(with its original descriptor, the survivors compacted in original relative
order with their profiles still paired) exactly when its port is privileged
(< 1024) and the config contains a listener with the same port and the same
bind address (NULL read as empty); every other slot is closed and dropped. -/
theorem listen_sockets_close_spec (cfg : List Listener) (socks : List ServerSock) :
    listenSocketsClose (some cfg) false socks
      = socks.filter (fun s => decide (s.conn.port < 1024)
          && cfg.any (fun l => decide (l.port = s.conn.port)
              && decide (normBind l.bindAddress = normBind s.conn.bindAddress)))
    ∧ ∀ s ∈ socks, (s ∈ listenSocketsClose (some cfg) false socks ↔
        (s.conn.port < 1024 ∧ ∃ l ∈ cfg, l.port = s.conn.port
          ∧ normBind l.bindAddress = normBind s.conn.bindAddress)) := by
  have hfilter : listenSocketsClose (some cfg) false socks
      = socks.filter (fun s => decide (s.conn.port < 1024)
          && cfg.any (fun l => decide (l.port = s.conn.port)
              && decide (normBind l.bindAddress = normBind s.conn.bindAddress))) := by
    induction socks with
    | nil => rfl
    | cons s rest ih =>
      have hiso : (listenerMatch cfg s.conn).isSome
          = cfg.any (fun l => decide (l.port = s.conn.port)
              && decide (normBind l.bindAddress = normBind s.conn.bindAddress)) := by
        cases h : listenerMatch cfg s.conn with
        | none =>
          unfold listenerMatch at h
          simp only [Option.isSome_none]
          symm
          rw [List.any_eq_false]
          exact List.find?_eq_none.mp h
        | some lm =>
          unfold listenerMatch at h
          symm
          simp only [Option.isSome_some]
          have hm := List.mem_of_find?_eq_some h
          have hpred := @List.find?_some _ _ _ _ h
          exact List.any_eq_true.mpr ⟨lm, hm, hpred⟩
      have hkeepeq : (if (True ∧ s.conn.port < 1024 : Prop)
            then (listenerMatch cfg s.conn).isSome else false)
          = (decide (s.conn.port < 1024)
              && cfg.any (fun l => decide (l.port = s.conn.port)
                && decide (normBind l.bindAddress = normBind s.conn.bindAddress))) := by
        by_cases hp : s.conn.port < 1024
        · rw [if_pos ⟨trivial, hp⟩, hiso]
          simp [hp]
        · rw [if_neg (by tauto)]
          symm
          simp [hp]
      rw [listenSocketsClose, List.filter_cons]
      simp only [hkeepeq, ih]
  refine ⟨hfilter, ?_⟩
  intro s hs
  rw [hfilter, List.mem_filter]
  constructor
  · rintro ⟨_, hpred⟩
    simp only [Bool.and_eq_true, decide_eq_true_eq, List.any_eq_true] at hpred
    rcases hpred with ⟨hport, l, hl, hpl⟩
    exact ⟨hport, l, hl, hpl.1, hpl.2⟩
  · rintro ⟨hport, l, hl, hp1, hp2⟩
    refine ⟨hs, ?_⟩
    simp only [Bool.and_eq_true, decide_eq_true_eq, List.any_eq_true]
    exact ⟨hport, l, hl, by simp [hp1, hp2]⟩

/-- C2 witness: the spec's reload scenario — active listeners on ports 80
(fd 5) and 8000 (fd 6), reloaded config listing 80 (same bind) and 8001: the
port-80 slot survives the close. -/
theorem listen_sockets_close_witness :
    (ServerSock.mk 5 { port := 80, bindAddress := none })
        ∈ [ServerSock.mk 5 { port := 80, bindAddress := none },
           ServerSock.mk 6 { port := 8000, bindAddress := none }]
    ∧ ((ServerSock.mk 5 { port := 80, bindAddress := none })
        ∈ listenSocketsClose
          (some [{ port := 80, bindAddress := none },
                 { port := 8001, bindAddress := none }]) false
          [ServerSock.mk 5 { port := 80, bindAddress := none },
           ServerSock.mk 6 { port := 8000, bindAddress := none }] ↔
        ((80 : Int) < 1024 ∧ ∃ l ∈ [({ port := 80, bindAddress := none } : Listener),
            { port := 8001, bindAddress := none }], l.port = (80 : Int)
          ∧ normBind l.bindAddress = normBind none)) :=
  ⟨by decide,
    (listen_sockets_close_spec
        [{ port := 80, bindAddress := none }, { port := 8001, bindAddress := none }]
        [ServerSock.mk 5 { port := 80, bindAddress := none },
         ServerSock.mk 6 { port := 8000, bindAddress := none }]).2
      (ServerSock.mk 5 { port := 80, bindAddress := none }) (by decide)⟩

/-! ## I/O adapter (C2 of the spec): vector writes over plain and TLS sockets -/

/-- An `IOVEC`: abstract base address and length. -/
structure IOV where
  base : Nat
  len : Nat
deriving DecidableEq, Repr

/-- Total byte count of a vector list (the `total` field of
`struct connection_bufs`, maintained by `connection_bufs_append`). -/
def sumLens (l : List IOV) : Nat := l.foldr (fun io acc => io.len + acc) 0

/-- The relevant `connection_t` state: TLS flag, error flag, `sent_bytes`. -/
structure Conn where
  ssl : Bool
  errorFlag : Bool
  sentBytes : Nat
deriving DecidableEq, Repr

/-- The scanning loop of `connbufs_locate_start`: find the vector containing
byte offset `skip`, returning its index, the offset into it, and its original
value. -/
def locateAux : List IOV → Nat → Option (Nat × Nat × IOV)
  | [], _ => none
  | io :: rest, skip =>
    if skip < io.len then some (0, skip, io)
    else
      match locateAux rest (skip - io.len) with
      | some (i, off, old) => some (i + 1, off, old)
      | none => none

/-- `connbufs_locate_start`: only scans when `skip < total`. -/
def connbufsLocateStart (vects : List IOV) (skip : Nat) : Option (Nat × Nat × IOV) :=
  if skip < sumLens vects then locateAux vects skip else none

/-- In-place splice of the vector at `i` (`IO_VECTOR_BASE(p) += offset;
IO_VECTOR_LEN(p) -= offset`), performed only when the offset is nonzero. -/
def spliceBlock (vects : List IOV) (i off : Nat) (old : IOV) : List IOV :=
  if off ≠ 0 then vects.set i { base := old.base + off, len := old.len - off } else vects

/-- `connection_send_ssl` given the classified outcome of `SSL_write`:
`res ≥ 0` models `SSL_ERROR_NONE`/`ZERO_RETURN` (bytes counted into
`sent_bytes`), `res < 0` with `fatal = false` models `WANT_READ`/`WANT_WRITE`
(return −1, no error), and `fatal = true` models the default branch (return
−1, error latched). -/
def connectionSendSsl (con : Conn) (res : Int) (fatal : Bool) : Int × Conn :=
  if 0 ≤ res then (res, { con with sentBytes := con.sentBytes + res.toNat })
  else if fatal then (-1, { con with errorFlag := true }) else (-1, con)

/-- The TLS emulation loop of `connection_bufs_send`: send each residual
vector through `connection_send_ssl` (outcomes supplied by the oracle `f`),
accumulating positive byte counts and stopping at the first negative or
short write. -/
def sslLoop (f : IOV → Int × Bool) : List IOV → Conn → Nat → Conn × Nat
  | [], con, bytes => (con, bytes)
  | io :: rest, con, bytes =>
    let r := connectionSendSsl con (f io).1 (f io).2
    let bytes1 := if 0 < r.1 then bytes + r.1.toNat else bytes
    if r.1 < 0 ∨ r.1 < (io.len : Int) then (r.2, bytes1)
    else sslLoop f rest r.2 bytes1

/-- Body of `connection_bufs_send` once `connbufs_locate_start` has found
the starting vector `i` with offset `off` (original value `old`). -/
def bufsSendCore (writevFn : List IOV → Int) (sslWriteFn : IOV → Int × Bool)
    (recov : Bool) (con : Conn) (vects : List IOV) (i off : Nat) (old : IOV) :
    Int × Conn × List IOV :=
  let block := spliceBlock vects i off old
  let residual := block.drop i
  let step : Int × Conn :=
    if con.ssl = false then
      let r := writevFn residual
      (r, if r < 0 ∧ recov = false then { con with errorFlag := true } else con)
    else
      let lp := sslLoop sslWriteFn residual con 0
      ((if 0 < lp.2 then (lp.2 : Int) else -1), lp.1)
  let restored := if off ≠ 0 then block.set i old else block
  let con2 := if 0 < step.1 then
      { step.2 with sentBytes := step.2.sentBytes + step.1.toNat }
    else step.2
  (step.1, con2, restored)

/-- `connection_bufs_send (con, vectors, skip)`.  The transports are oracles:
`writevFn` is `sock_writev` on the residual vectors (plain path; `recov`
says whether a negative result was a recoverable errno), `sslWriteFn`
classifies `SSL_write` per vector (TLS path).  `skip > total` is the C
`abort ()`, modelled as `none`.  Returns the C return value, the updated
connection (error flag, `sent_bytes`) and the vector list after the
restoration `if (offset) *p = old_vals`. -/
def connectionBufsSend (writevFn : List IOV → Int) (sslWriteFn : IOV → Int × Bool)
    (recov : Bool) (con : Conn) (vects : List IOV) (skip : Nat) :
    Option (Int × Conn × List IOV) :=
  if skip > sumLens vects then none
  else
    match connbufsLocateStart vects skip with
    | none => some (-1, con, vects)
    | some (i, off, old) => some (bufsSendCore writevFn sslWriteFn recov con vects i off old)

lemma locateAux_spec : ∀ (l : List IOV) (skip i off : Nat) (old : IOV),
    locateAux l skip = some (i, off, old) →
    l.get? i = some old ∧ off ≤ old.len ∧
      sumLens ((spliceBlock l i off old).drop i) + skip = sumLens l
  | [], skip, i, off, old => by
    intro h
    exact Option.noConfusion h
  | io :: rest, skip, i, off, old => by
    intro h
    rw [locateAux] at h
    by_cases hlt : skip < io.len
    · rw [if_pos hlt] at h
      obtain ⟨rfl, rfl, rfl⟩ : 0 = i ∧ skip = off ∧ io = old := by
        injection h with h1
        injection h1 with h1 h2
        injection h2 with h2 h3
        exact ⟨h1.symm ▸ rfl, h2 ▸ rfl, h3 ▸ rfl⟩
      refine ⟨rfl, Nat.le_of_lt hlt, ?_⟩
      by_cases hoff : skip = 0
      · simp [spliceBlock, hoff, sumLens]
      · simp only [spliceBlock, if_pos (by omega : skip ≠ 0), List.set]
        simp only [List.drop_zero, sumLens, List.foldr_cons]
        omega
    · rw [if_neg hlt] at h
      cases hrec : locateAux rest (skip - io.len) with
      | none =>
        rw [hrec] at h
        exact Option.noConfusion h
      | some t =>
        obtain ⟨i', off', old'⟩ := t
        rw [hrec] at h
        obtain ⟨rfl, rfl, rfl⟩ : i' + 1 = i ∧ off' = off ∧ old' = old := by
          injection h with h1
          injection h1 with h1 h2
          injection h2 with h2 h3
          exact ⟨h1, h2, h3⟩
        obtain ⟨hget, hoffle, hsum⟩ := locateAux_spec rest (skip - io.len) i' off' old' hrec
        have hsplice : spliceBlock (io :: rest) (i' + 1) off' old'
            = io :: spliceBlock rest i' off' old' := by
          by_cases hoff : off' = 0
          · simp [spliceBlock, hoff]
          · simp [spliceBlock, hoff, List.set]
        refine ⟨by simpa using hget, hoffle, ?_⟩
        rw [hsplice]
        simp only [List.drop_succ_cons]
        have : sumLens (io :: rest) = io.len + sumLens rest := by simp [sumLens]
        omega

lemma set_get_self : ∀ (l : List IOV) (i : Nat) (a : IOV),
    l.get? i = some a → l.set i a = l
  | [], i, a => by
    intro h
    exact Option.noConfusion h
  | x :: t, 0, a => by
    intro h
    injection h with h
    simp [h]
  | x :: t, i + 1, a => by
    intro h
    simp only [List.get?_cons_succ] at h
    simp [set_get_self t i a h]

lemma restored_eq (vects : List IOV) (i off : Nat) (old : IOV)
    (hget : vects.get? i = some old) :
    (if off ≠ 0 then (spliceBlock vects i off old).set i old
      else spliceBlock vects i off old) = vects := by
  by_cases hoff : off = 0
  · simp [spliceBlock, hoff]
  · simp only [spliceBlock, if_pos hoff, ne_eq, not_false_iff]
    rw [List.set_set]
    exact set_get_self vects i old hget

lemma sslLoop_sent (f : IOV → Int × Bool) : ∀ (ios : List IOV) (con : Conn) (bytes : Nat),
    (sslLoop f ios con bytes).1.sentBytes + bytes
      = con.sentBytes + (sslLoop f ios con bytes).2
  | [], con, bytes => by simp [sslLoop]
  | io :: rest, con, bytes => by
    rw [sslLoop]
    by_cases hr : 0 ≤ (f io).1
    · have hcs : connectionSendSsl con (f io).1 (f io).2
          = ((f io).1, { con with sentBytes := con.sentBytes + (f io).1.toNat }) := by
        rw [connectionSendSsl, if_pos hr]
      rw [hcs]
      by_cases hstop : (f io).1 < 0 ∨ (f io).1 < (io.len : Int)
      · rw [if_pos hstop]
        by_cases hpos : 0 < (f io).1
        · simp only [if_pos hpos]
          omega
        · simp only [if_neg hpos]
          have : (f io).1.toNat = 0 := by omega
          omega
      · rw [if_neg hstop]
        by_cases hpos : 0 < (f io).1
        · simp only [if_pos hpos]
          have ih := sslLoop_sent f rest
            { con with sentBytes := con.sentBytes + (f io).1.toNat }
            (bytes + (f io).1.toNat)
          simp only at ih
          omega
        · simp only [if_neg hpos]
          have : (f io).1.toNat = 0 := by omega
          have ih := sslLoop_sent f rest
            { con with sentBytes := con.sentBytes + (f io).1.toNat } bytes
          simp only at ih
          omega
    · have hcs1 : (connectionSendSsl con (f io).1 (f io).2).1 = -1 := by
        rw [connectionSendSsl, if_neg hr]
        by_cases hf : (f io).2 <;> simp [hf]
      have hcs2 : (connectionSendSsl con (f io).1 (f io).2).2.sentBytes
          = con.sentBytes := by
        rw [connectionSendSsl, if_neg hr]
        by_cases hf : (f io).2 <;> simp [hf]
      rw [if_pos (Or.inl (by rw [hcs1]; norm_num))]
      simp only [hcs1]
      rw [if_neg (by norm_num : ¬ (0 : Int) < -1)]
      omega

lemma sslLoop_bound (f : IOV → Int × Bool) (hf : ∀ io, (f io).1 ≤ (io.len : Int)) :
    ∀ (ios : List IOV) (con : Conn) (bytes : Nat),
    (sslLoop f ios con bytes).2 ≤ bytes + sumLens ios
  | [], con, bytes => by simp [sslLoop]
  | io :: rest, con, bytes => by
    rw [sslLoop]
    have hsum : sumLens (io :: rest) = io.len + sumLens rest := by simp [sumLens]
    by_cases hr : 0 ≤ (f io).1
    · have hcs : connectionSendSsl con (f io).1 (f io).2
          = ((f io).1, { con with sentBytes := con.sentBytes + (f io).1.toNat }) := by
        rw [connectionSendSsl, if_pos hr]
      rw [hcs]
      have hle := hf io
      by_cases hstop : (f io).1 < 0 ∨ (f io).1 < (io.len : Int)
      · rw [if_pos hstop]
        by_cases hpos : 0 < (f io).1
        · simp only [if_pos hpos]
          omega
        · simp only [if_neg hpos]
          omega
      · rw [if_neg hstop]
        by_cases hpos : 0 < (f io).1
        · simp only [if_pos hpos]
          have ih := sslLoop_bound f hf rest
            { con with sentBytes := con.sentBytes + (f io).1.toNat }
            (bytes + (f io).1.toNat)
          omega
        · simp only [if_neg hpos]
          have ih := sslLoop_bound f hf rest
            { con with sentBytes := con.sentBytes + (f io).1.toNat } bytes
          omega
    · have hcs1 : (connectionSendSsl con (f io).1 (f io).2).1 = -1 := by
        rw [connectionSendSsl, if_neg hr]
        by_cases hfat : (f io).2 <;> simp [hfat]
      rw [if_pos (Or.inl (by rw [hcs1]; norm_num))]
      simp only [hcs1]
      rw [if_neg (by norm_num : ¬ (0 : Int) < -1)]
      omega

lemma bufs_send_main (writevFn : List IOV → Int) (sslWriteFn : IOV → Int × Bool)
    (recov : Bool) (con : Conn) (vects : List IOV) (skip : Nat)
    (hskip : skip ≤ sumLens vects)
    (hw : ∀ l, writevFn l ≤ (sumLens l : Int))
    (hs : ∀ io, (sslWriteFn io).1 ≤ (io.len : Int)) :
    ∃ ret con2, connectionBufsSend writevFn sslWriteFn recov con vects skip
        = some (ret, con2, vects)
      ∧ (0 ≤ ret → skip + ret.toNat ≤ sumLens vects)
      ∧ (0 < ret → con2.sentBytes
          = con.sentBytes + (if con.ssl then 2 * ret.toNat else ret.toNat)) := by
  have hnotgt : ¬ skip > sumLens vects := by omega
  cases hloc : connbufsLocateStart vects skip with
  | none =>
    refine ⟨-1, con, ?_, ?_, ?_⟩
    · rw [connectionBufsSend, if_neg hnotgt, hloc]
    · intro h
      exact absurd h (by norm_num)
    · intro h
      exact absurd h (by norm_num)
  | some t =>
    obtain ⟨i, off, old⟩ := t
    have hlt : skip < sumLens vects := by
      by_contra hcon
      rw [connbufsLocateStart, if_neg hcon] at hloc
      exact Option.noConfusion hloc
    have hlaux : locateAux vects skip = some (i, off, old) := by
      rw [connbufsLocateStart, if_pos hlt] at hloc
      exact hloc
    obtain ⟨hget, hoffle, hres⟩ := locateAux_spec vects skip i off old hlaux
    have hrestored : (if off ≠ 0 then (spliceBlock vects i off old).set i old
        else spliceBlock vects i off old) = vects := restored_eq vects i off old hget
    have hcore22 : (bufsSendCore writevFn sslWriteFn recov con vects i off old).2.2
        = vects := by
      rw [bufsSendCore]
      exact hrestored
    refine ⟨(bufsSendCore writevFn sslWriteFn recov con vects i off old).1,
      (bufsSendCore writevFn sslWriteFn recov con vects i off old).2.1, ?_, ?_, ?_⟩
    · rw [connectionBufsSend, if_neg hnotgt, hloc]
      calc (some (bufsSendCore writevFn sslWriteFn recov con vects i off old)
              : Option (Int × Conn × List IOV))
          = some ((bufsSendCore writevFn sslWriteFn recov con vects i off old).1,
              (bufsSendCore writevFn sslWriteFn recov con vects i off old).2.1,
              (bufsSendCore writevFn sslWriteFn recov con vects i off old).2.2) := rfl
        _ = some ((bufsSendCore writevFn sslWriteFn recov con vects i off old).1,
              (bufsSendCore writevFn sslWriteFn recov con vects i off old).2.1,
              vects) := by rw [hcore22]
    · -- skip + ret ≤ total
      intro hret
      by_cases hssl : con.ssl = false
      · have h1 : (bufsSendCore writevFn sslWriteFn recov con vects i off old).1
            = writevFn ((spliceBlock vects i off old).drop i) := by
          rw [bufsSendCore]
          simp only [if_pos hssl]
        rw [h1] at hret ⊢
        have := hw ((spliceBlock vects i off old).drop i)
        omega
      · have h1 : (bufsSendCore writevFn sslWriteFn recov con vects i off old).1
            = (if 0 < (sslLoop sslWriteFn ((spliceBlock vects i off old).drop i) con 0).2
                then ((sslLoop sslWriteFn ((spliceBlock vects i off old).drop i) con 0).2 : Int)
                else -1) := by
          rw [bufsSendCore]
          simp only [if_neg hssl]
        rw [h1] at hret ⊢
        have hb := sslLoop_bound sslWriteFn hs ((spliceBlock vects i off old).drop i) con 0
        by_cases hpos : 0 < (sslLoop sslWriteFn ((spliceBlock vects i off old).drop i) con 0).2
        · rw [if_pos hpos] at hret ⊢
          omega
        · rw [if_neg hpos] at hret
          exact absurd hret (by norm_num)
    · -- sent_bytes accounting
      intro hret
      by_cases hssl : con.ssl = false
      · have h1 : (bufsSendCore writevFn sslWriteFn recov con vects i off old).1
            = writevFn ((spliceBlock vects i off old).drop i) := by
          rw [bufsSendCore]
          simp only [if_pos hssl]
        have hnneg : ¬ (writevFn ((spliceBlock vects i off old).drop i) < 0 ∧ recov = false) := by
          rw [h1] at hret
          intro hc
          omega
        have h2 : (bufsSendCore writevFn sslWriteFn recov con vects i off old).2.1
            = { con with sentBytes := con.sentBytes
                + (writevFn ((spliceBlock vects i off old).drop i)).toNat } := by
          rw [bufsSendCore]
          simp only [if_pos hssl, if_neg hnneg]
          rw [if_pos (by rw [h1] at hret; exact hret)]
        rw [h1, h2, hssl]
        simp
      · have hsslT : con.ssl = true := by
          cases hc : con.ssl
          · exact absurd hc hssl
          · rfl
        set lp := sslLoop sslWriteFn ((spliceBlock vects i off old).drop i) con 0 with hlp
        have h1 : (bufsSendCore writevFn sslWriteFn recov con vects i off old).1
            = (if 0 < lp.2 then (lp.2 : Int) else -1) := by
          rw [bufsSendCore]
          simp only [if_neg hssl]
        have hpos : 0 < lp.2 := by
          rw [h1] at hret
          by_cases hp : 0 < lp.2
          · exact hp
          · rw [if_neg hp] at hret
            exact absurd hret (by norm_num)
        have hretval : (bufsSendCore writevFn sslWriteFn recov con vects i off old).1
            = (lp.2 : Int) := by
          rw [h1, if_pos hpos]
        have h2 : (bufsSendCore writevFn sslWriteFn recov con vects i off old).2.1
            = { lp.1 with sentBytes := lp.1.sentBytes + lp.2 } := by
          rw [bufsSendCore]
          simp only [if_neg hssl, ← hlp]
          rw [if_pos hpos]
          rw [if_pos (by exact_mod_cast hpos : (0 : Int) < (lp.2 : Int))]
          simp
        have hsent := sslLoop_sent sslWriteFn ((spliceBlock vects i off old).drop i) con 0
        rw [← hlp] at hsent
        rw [hretval, h2, hsslT]
        simp only [if_pos rfl, if_true, Int.toNat_natCast]
        omega

/-- C6: for every `connection_bufs_send (con, vectors, skip)` with
`0 ≤ skip ≤ total` (larger skips `abort ()`), assuming the transports write
at most the bytes offered, a non-negative return `n` satisfies
`skip + n ≤ total`, and the vector list — including a mid-vector splice of
the first residual vector — is restored to its original state before the
call returns. -/
theorem bufs_send_skip_bound (writevFn : List IOV → Int) (sslWriteFn : IOV → Int × Bool)
    (recov : Bool) (con : Conn) (vects : List IOV) (skip : Nat)
    (hskip : skip ≤ sumLens vects)
    (hw : ∀ l, writevFn l ≤ (sumLens l : Int))
    (hs : ∀ io, (sslWriteFn io).1 ≤ (io.len : Int)) :
    ∃ ret con2, connectionBufsSend writevFn sslWriteFn recov con vects skip
        = some (ret, con2, vects)
      ∧ (0 ≤ ret → skip + ret.toNat ≤ sumLens vects) := by
  obtain ⟨ret, con2, h1, h2, _⟩ :=
    bufs_send_main writevFn sslWriteFn recov con vects skip hskip hw hs
  exact ⟨ret, con2, h1, h2⟩

/-- C6 witness: two vectors of 5 and 4 bytes, skip 2, on a plain connection
whose transport writes everything offered: the call returns 7 and
`2 + 7 ≤ 9`. -/
theorem bufs_send_skip_bound_witness :
    (2 ≤ sumLens [IOV.mk 100 5, IOV.mk 200 4]) ∧
      ∃ ret con2, connectionBufsSend (fun l => (sumLens l : Int)) (fun io => ((io.len : Int), false))
          false (Conn.mk false false 0) [IOV.mk 100 5, IOV.mk 200 4] 2
        = some (ret, con2, [IOV.mk 100 5, IOV.mk 200 4])
      ∧ (0 ≤ ret → 2 + ret.toNat ≤ sumLens [IOV.mk 100 5, IOV.mk 200 4]) :=
  ⟨by decide,
    bufs_send_skip_bound (fun l => (sumLens l : Int)) (fun io => ((io.len : Int), false))
      false (Conn.mk false false 0) [IOV.mk 100 5, IOV.mk 200 4] 2
      (by decide) (fun l => le_refl _) (fun io => le_refl _)⟩

/-- C9: a `connection_bufs_send` call that transfers `n > 0` bytes adds `2n`
to `sent_bytes` on a TLS connection (once per chunk inside
`connection_send_ssl`, once again when the total is added at the end) and
exactly `n` on a plain connection. -/
theorem bufs_send_sent_accounting (writevFn : List IOV → Int)
    (sslWriteFn : IOV → Int × Bool) (recov : Bool) (con : Conn) (vects : List IOV)
    (skip : Nat) (hskip : skip ≤ sumLens vects)
    (hw : ∀ l, writevFn l ≤ (sumLens l : Int))
    (hs : ∀ io, (sslWriteFn io).1 ≤ (io.len : Int)) :
    ∃ ret con2, connectionBufsSend writevFn sslWriteFn recov con vects skip
        = some (ret, con2, vects)
      ∧ (0 < ret → con2.sentBytes
          = con.sentBytes + (if con.ssl then 2 * ret.toNat else ret.toNat)) := by
  obtain ⟨ret, con2, h1, _, h3⟩ :=
    bufs_send_main writevFn sslWriteFn recov con vects skip hskip hw hs
  exact ⟨ret, con2, h1, h3⟩

/-- C9 witness: the same two 5- and 4-byte vectors sent whole (skip 0) over
a TLS connection double-count into `sent_bytes`, over a plain one they count
once. -/
theorem bufs_send_sent_accounting_witness :
    (0 ≤ sumLens [IOV.mk 100 5, IOV.mk 200 4]) ∧
      ∃ ret con2, connectionBufsSend (fun l => (sumLens l : Int))
          (fun io => ((io.len : Int), false)) false (Conn.mk true false 0)
          [IOV.mk 100 5, IOV.mk 200 4] 0
        = some (ret, con2, [IOV.mk 100 5, IOV.mk 200 4])
      ∧ (0 < ret → con2.sentBytes
          = (Conn.mk true false 0).sentBytes
            + (if (Conn.mk true false 0).ssl then 2 * ret.toNat else ret.toNat)) :=
  ⟨by decide,
    bufs_send_sent_accounting (fun l => (sumLens l : Int))
      (fun io => ((io.len : Int), false)) false (Conn.mk true false 0)
      [IOV.mk 100 5, IOV.mk 200 4] 0 (by decide)
      (fun l => le_refl _) (fun io => le_refl _)⟩

/-! ## Request preamble reader (C5 of the spec, `http_client_request`) -/

/-- `strstr`: index of the first occurrence of `pat` in `l`
(the modelled buffers carry no NUL inside the received bytes). -/
def findSub (pat : List Nat) : List Nat → Option Nat
  | [] => if pat = [] then some 0 else none
  | a :: rest =>
    if (a :: rest).take pat.length = pat then some 0
    else
      match findSub pat rest with
      | some i => some (i + 1)
      | none => none

/-- The end-of-headers search of `http_client_request`: `\r\n\r\n` (+4),
then `\n\n` (+2), then `\r\r\n\r\r\n` (+6); the returned offset is where the
body starts. -/
def findTerminator (data : List Nat) : Option Nat :=
  match findSub (strBytes "\r\n\r\n") data with
  | some i => some (i + 4)
  | none =>
    match findSub (strBytes "\n\n") data with
    | some i => some (i + 2)
    | none =>
      match findSub (strBytes "\r\r\n\r\r\n") data with
      | some i => some (i + 6)
      | none => none

/-- Inputs of one `http_client_request` invocation: process/connection
state, the bytes already accumulated in the request buffer, the wall-clock
and millisecond clocks, the `client->counter` stamp seeded at accept, and
the oracle outcome of `client_read_bytes` (`readRet`, with the bytes
delivered when positive). -/
structure HCRInput where
  running : Bool
  bufData : List Nat
  disconTime : Int
  nowSec : Int
  timeMs : Nat
  counter : Nat
  errorFlag : Bool
  readRet : Int
  readBytes : List Nat
deriving Repr

/-- Outcome of one `http_client_request` invocation: terminal failure
(return −1, buffer released), a reschedule (return 0 with the next
`schedule_ms`), the flash-policy diversion, or a complete preamble handed to
the header parser (buffer contents and body offset); parsing and dispatch
beyond that point are external collaborators. -/
inductive HCRout where
  | fail
  | resched (ms : Nat)
  | policy
  | parsed (buf : List Nat) (hdrEnd : Nat)
deriving DecidableEq, Repr

/-- One invocation of `http_client_request` up to the hand-off to
`httpp_parse`.  `client->counter` and `worker->time_ms` are `uint64_t`, so
the retry-delay subtraction wraps modulo `2 ^ 64`; the modelled inputs keep
`counter < 2 ^ 64`. -/
def httpClientRequest (inp : HCRInput) : HCRout :=
  if inp.running = false then HCRout.fail
  else
    let remaining := PER_CLIENT_REFBUF_SIZE - 1 - inp.bufData.length
    if remaining ≠ 0 ∧ inp.disconTime > inp.nowSec then
      if inp.readRet > 0 then
        let data := inp.bufData ++ inp.readBytes
        if data.take 23 = strBytes "<policy-file-request/>" ++ [0] then HCRout.policy
        else
          match findTerminator data with
          | some ofs => HCRout.parsed data ofs
          | none => HCRout.resched (inp.timeMs + 100)
      else if inp.readRet ≠ 0 ∧ inp.errorFlag = false then
        let diff := (2 ^ 64 + inp.timeMs - inp.counter) % 2 ^ 64 / 2
        let diff := if diff > 200 then 200 else diff
        HCRout.resched (inp.timeMs + 6 + diff)
      else HCRout.fail
    else HCRout.fail

/-- C7: an invocation of the preamble reader whose read would block
(negative read result) with the error flag clear, room left in the buffer
and the disconnect deadline not reached, reschedules the client (rather
than terminating it) to
`now + 6 ms + min ((now − counter) / 2, 200 ms)`, a delay of at most
206 ms. -/
theorem http_request_wouldblock_resched (inp : HCRInput)
    (hrun : inp.running = true) (herr : inp.errorFlag = false)
    (hread : inp.readRet < 0)
    (hlen : inp.bufData.length < PER_CLIENT_REFBUF_SIZE - 1)
    (hdeadline : inp.disconTime > inp.nowSec)
    (hctr : inp.counter ≤ inp.timeMs) (hms : inp.timeMs < 2 ^ 64) :
    httpClientRequest inp
      = HCRout.resched (inp.timeMs + 6 + min ((inp.timeMs - inp.counter) / 2) 200)
    ∧ inp.timeMs + 6 + min ((inp.timeMs - inp.counter) / 2) 200 ≤ inp.timeMs + 206 := by
  constructor
  · rw [httpClientRequest]
    rw [if_neg (by rw [hrun]; exact Bool.noConfusion)]
    rw [if_pos ⟨by
      have hP : PER_CLIENT_REFBUF_SIZE = 4096 := rfl
      omega, hdeadline⟩]
    rw [if_neg (by omega : ¬ inp.readRet > 0)]
    rw [if_pos ⟨by omega, herr⟩]
    have hdiff : (2 ^ 64 + inp.timeMs - inp.counter) % 2 ^ 64
        = inp.timeMs - inp.counter := by
      omega
    rw [hdiff]
    have hclamp : (if (inp.timeMs - inp.counter) / 2 > 200 then 200
          else (inp.timeMs - inp.counter) / 2)
        = min ((inp.timeMs - inp.counter) / 2) 200 := by
      rw [Nat.min_def]
      by_cases h : (inp.timeMs - inp.counter) / 2 ≤ 200
      · rw [if_pos h, if_neg (by omega)]
      · rw [if_neg h, if_pos (show (inp.timeMs - inp.counter) / 2 > 200 by omega)]
    dsimp only
    rw [hclamp]
  · omega

/-- C7 witness: a would-block read 380 ms after accept is rescheduled for
`now + 6 + 190` — within the 206 ms cap. -/
theorem http_request_wouldblock_resched_witness :
    ((-1 : Int) < 0) ∧
      httpClientRequest
          { running := true, bufData := [], disconTime := 50, nowSec := 40,
            timeMs := 1380, counter := 1000, errorFlag := false,
            readRet := -1, readBytes := [] }
        = HCRout.resched (1380 + 6 + min ((1380 - 1000) / 2) 200) :=
  ⟨by decide,
    (http_request_wouldblock_resched
        { running := true, bufData := [], disconTime := 50, nowSec := 40,
          timeMs := 1380, counter := 1000, errorFlag := false,
          readRet := -1, readBytes := [] }
        (by decide) (by decide) (by decide) (by decide) (by decide) (by decide)
        (by decide)).1⟩

/-! ## Credential check (C8 of the spec, `connection_check_pass`) -/

/-- A parsed request: association list of header/parser variables.
`httpp_getvar` finds the first binding. -/
def httppGetvar (parser : List (String × String)) (key : String) : Option String :=
  (parser.find? (fun kv => kv.1 == key)).map (fun kv => kv.2)

/-- The parser's protocol pseudo-variable `HTTPP_VAR_PROTOCOL`. -/
def HTTPP_VAR_PROTOCOL : String := "HTTPP_VAR_PROTOCOL"

/-- The parser's `HTTPP_VAR_ICYPASSWORD` pseudo-variable. -/
def HTTPP_VAR_ICYPASSWORD : String := "HTTPP_VAR_ICYPASSWORD"

/-- Modelled from the spec: `util_base64_decode` (util.c, absent from src)
returns NULL on input it cannot decode; rendered as a validity check
(length a multiple of 4, characters from the alphabet or padding) before
`b64decode`. -/
def utilBase64Decode (l : List Nat) : Option (List Nat) :=
  if l.length % 4 == 0 && l.all (fun c => b64alphabet.contains c || c == 61)
  then some (b64decode l) else none

/-- `_check_pass_http`: `Basic `-prefixed Authorization header, base64
decoded, split at the first `:` (byte 58), both sides compared exactly. -/
def checkPassHttp (parser : List (String × String))
    (correctuser correctpass : String) : Int :=
  match httppGetvar parser "authorization" with
  | none => 0
  | some hdr =>
    if hdr.data.take 6 ≠ "Basic ".data then 0
    else
      match utilBase64Decode ((hdr.data.drop 6).map Char.toNat) with
      | none => 0
      | some userpass =>
        let i := (userpass.takeWhile (fun b => b != 58)).length
        if i = userpass.length then 0
        else
          let username := userpass.take i
          let password := userpass.drop (i + 1)
          if username = strBytes correctuser ∧ password = strBytes correctpass
          then 1 else 0

/-- `_check_pass_icy`: the `icy-password` parser variable compared to the
configured password. -/
def checkPassIcy (parser : List (String × String)) (correctpass : String) : Int :=
  match httppGetvar parser HTTPP_VAR_ICYPASSWORD with
  | none => 0
  | some password => if password = correctpass then 1 else 0

/-- `_check_pass_ice`: the `ice-password` header (empty when absent)
compared to the configured password. -/
def checkPassIce (parser : List (String × String)) (correctpass : String) : Int :=
  let password := (httppGetvar parser "ice-password").getD ""
  if password = correctpass then 1 else 0

/-- `connection_check_pass (parser, user, pass)`: returns −1 when no source
password is configured; otherwise ICY verification for protocol `ICY`, else
HTTP Basic with the deprecated `ice-password` fallback when `ice_login` is
configured. -/
def connectionCheckPass (parser : List (String × String)) (user : String)
    (pass : Option String) (iceLogin : Bool) : Int :=
  match pass with
  | none => -1
  | some pw =>
    let protocol := httppGetvar parser HTTPP_VAR_PROTOCOL
    if protocol = some "ICY" then checkPassIcy parser pw
    else
      let ret := checkPassHttp parser user pw
      if ret = 0 ∧ iceLogin = true then checkPassIce parser pw
      else ret

/-- C10: with a NULL configured source password, `connection_check_pass`
returns −1 for every parser and user, without examining any credentials —
a value distinct from both documented results (0 = failed, 1 = ok), so a
caller testing the result for non-zero reads the missing-password case as
success. -/
theorem check_pass_null_password :
    (∀ parser user iceLogin,
      connectionCheckPass parser user none iceLogin = -1)
    ∧ (-1 : Int) ≠ 0 ∧ (-1 : Int) ≠ 1 :=
  ⟨fun _ _ _ => rfl, by decide, by decide⟩

end IcecastConn
